import Mathlib

/-!
Verification of a fine-grained-locking doubly linked list (Rust sources
`src/node.rs`, `src/list.rs`, `src/lib.rs`).

Shallow embedding.  A `Node<T>` is an `Arc` handle onto a mutex-guarded
`Routes { left, right }` record plus an immutable `Arc<T>` value; node
equality is pointer equality on the routes record.  We model the heap of
nodes as a list of records indexed by allocation order: a node handle is
the `Nat` index of its record, the `Arc<Mutex<Routes>>` cell becomes an
in-place updatable entry of the list.  Since every public operation is
observed quiescently (the claims are about sequential, externally
observable behaviour), each lock acquisition succeeds and the
`try_lock!`/retry loops run their successful first iteration; the
operations below are the resulting sequential state transformers,
translated branch by branch from the source.

`LinkedList::pop_front` contains two `unwrap_unchecked` calls (undefined
behaviour when the value is absent).  `pop_front` therefore returns
`Option (state × popped value)`: `none` marks that an unchecked unwrap was
reached with an absent value.
-/

namespace DLinked

/-- `Routes<T>`: the mutex-guarded pair of optional neighbour handles
(`node.rs`, `struct Routes`). -/
structure Routes where
  left : Option Nat
  right : Option Nat
deriving DecidableEq, Repr

/-- `Routes::is_insulate` (`node.rs`): both neighbours absent. -/
def Routes.is_insulate (r : Routes) : Bool :=
  r.left.isNone && r.right.isNone

/-- One allocated node: its routes record and its immutable value
(`node.rs`, `struct Node`: `routes` + `value`). -/
structure NodeData (V : Type) where
  routes : Routes
  value : V
deriving DecidableEq, Repr

/-- The whole observable state: the heap of allocated nodes (indexed by
allocation order; a node handle is its index) together with the two
boundary cells of `LinkedList` (`list.rs`: `head`, `tail`). -/
structure LState (V : Type) where
  nodes : List (NodeData V)
  head : Option Nat
  tail : Option Nat
deriving DecidableEq, Repr

/-- In-place update of the `i`-th entry of a list (the effect of writing
through a locked `Arc<Mutex<_>>` cell). -/
def updAt {α : Type} : List α → Nat → (α → α) → List α
  | [], _, _ => []
  | a :: l, 0, f => f a :: l
  | a :: l, n + 1, f => a :: updAt l n f

variable {V : Type}

/-- Dereference a node handle to its routes record; unallocated indices
(never produced by the operations) read as insulated. -/
def LState.routes (st : LState V) (i : Nat) : Routes :=
  match st.nodes[i]? with
  | some nd => nd.routes
  | none => ⟨none, none⟩

/-- `Node::value` (`node.rs`): the immutable value of a node. -/
def LState.value [Inhabited V] (st : LState V) (i : Nat) : V :=
  match st.nodes[i]? with
  | some nd => nd.value
  | none => default

/-- Overwrite the routes record of node `i` (a store through its lock). -/
def LState.set_routes (st : LState V) (i : Nat) (r : Routes) : LState V :=
  { st with nodes := updAt st.nodes i (fun nd => { nd with routes := r }) }

/-- `self_routes.left = x`: assignment to the `left` field of node `i`. -/
def LState.set_left (st : LState V) (i : Nat) (x : Option Nat) : LState V :=
  st.set_routes i ⟨x, (st.routes i).right⟩

/-- `self_routes.right = x`: assignment to the `right` field of node `i`. -/
def LState.set_right (st : LState V) (i : Nat) (x : Option Nat) : LState V :=
  st.set_routes i ⟨(st.routes i).left, x⟩

/-- `LinkedList::new` (`list.rs`): no nodes allocated, both cells empty. -/
def LState.new : LState V :=
  ⟨[], none, none⟩

/-- `Node::insert_left` (`node.rs` 91-119), sequential projection of the
retry loop: allocate the new node `mid` between `self = s` and its former
left neighbour (if any), then relink.  Returns the new node handle. -/
def LState.insert_left (st : LState V) (s : Nat) (v : V) : LState V × Nat :=
  let mid := st.nodes.length
  match (st.routes s).left with
  | some l =>
      let st1 : LState V := { st with nodes := st.nodes ++ [⟨⟨some l, some s⟩, v⟩] }
      (((st1.set_left s (some mid)).set_right l (some mid)), mid)
  | none =>
      let st1 : LState V := { st with nodes := st.nodes ++ [⟨⟨none, some s⟩, v⟩] }
      ((st1.set_left s (some mid)), mid)

/-- `Node::insert_right` (`node.rs` 121-140): allocate the new node `mid`
between `self = s` and its former right neighbour (if any). -/
def LState.insert_right (st : LState V) (s : Nat) (v : V) : LState V × Nat :=
  let mid := st.nodes.length
  match (st.routes s).right with
  | some r =>
      let st1 : LState V := { st with nodes := st.nodes ++ [⟨⟨some s, some r⟩, v⟩] }
      (((st1.set_right s (some mid)).set_left r (some mid)), mid)
  | none =>
      let st1 : LState V := { st with nodes := st.nodes ++ [⟨⟨some s, none⟩, v⟩] }
      ((st1.set_right s (some mid)), mid)

/-- `Node::insulate_left` + `insulate_left_owned` (`node.rs` 142-154,
198-202): if `s` has a left neighbour `l`, set `l.right` to `s.right`;
take `s.left` (returning it) and leave `s.right` untouched. -/
def LState.insulate_left [Inhabited V] (st : LState V) (s : Nat) :
    LState V × V × Option Nat :=
  let r0 := st.routes s
  let st1 := match r0.left with
    | some l => st.set_right l r0.right
    | none => st
  (st1.set_left s none, st.value s, r0.left)

/-- `Node::insulate_right` + `insulate_right_owned` (`node.rs` 156-166,
204-208): if `s` has a right neighbour `r`, set `r.left` to `s.left`;
take `s.right` (returning it). -/
def LState.insulate_right [Inhabited V] (st : LState V) (s : Nat) :
    LState V × V × Option Nat :=
  let r0 := st.routes s
  let st1 := match r0.right with
    | some r => st.set_left r r0.left
    | none => st
  (st1.set_right s none, st.value s, r0.right)

/-- `Node::insulate` + `insulate_owned` (`node.rs` 168-196, 210-214): the
full interior detach.  Relink `l.right = s.right` and `r.left = s.left`
(each only when the neighbour exists), then take both of `s`'s own
neighbour fields. -/
def LState.insulate [Inhabited V] (st : LState V) (s : Nat) :
    LState V × V × Option Nat × Option Nat :=
  let r0 := st.routes s
  let st1 := match r0.left with
    | some l => st.set_right l r0.right
    | none => st
  let st2 := match r0.right with
    | some r => st1.set_left r r0.left
    | none => st1
  ((st2.set_left s none).set_right s none, st.value s, r0.left, r0.right)

/-- `LinkedList::push_front` (`list.rs` 26-45): with a head present,
delegate to `insert_left` on it and install the returned node into the
head cell; on an empty head cell allocate an insulated node and install
it as both head and tail. -/
def LState.push_front (st : LState V) (v : V) : LState V × Nat :=
  match st.head with
  | some h =>
      let p := st.insert_left h v
      ({ p.1 with head := some p.2 }, p.2)
  | none =>
      let n := st.nodes.length
      ({ st with nodes := st.nodes ++ [⟨⟨none, none⟩, v⟩],
                 head := some n, tail := some n }, n)

/-- `LinkedList::push_back` (`list.rs` 47-64): mirror of `push_front`. -/
def LState.push_back (st : LState V) (v : V) : LState V × Nat :=
  match st.tail with
  | some t =>
      let p := st.insert_right t v
      ({ p.1 with tail := some p.2 }, p.2)
  | none =>
      let n := st.nodes.length
      ({ st with nodes := st.nodes ++ [⟨⟨none, none⟩, v⟩],
                 head := some n, tail := some n }, n)

/-- `LinkedList::pop_front` (`list.rs` 66-89).  The cells are compared by
node identity (`Option<Node>` equality is `Arc::ptr_eq` on routes, i.e.
index equality here).  Equal cells: take both, returning the sole value
if any.  Unequal cells: the code calls `unwrap_unchecked` on the head
cell's content and on the result of `insulate_right`; `none` in the outer
`Option` marks such an unchecked unwrap reached with an absent value. -/
def LState.pop_front [Inhabited V] (st : LState V) :
    Option (LState V × Option V) :=
  if st.tail = st.head then
    match st.head with
    | some h => some ({ st with head := none, tail := none }, some (st.value h))
    | none => some (st, none)
  else
    match st.head with
    | some h =>
        let p := st.insulate_right h
        match p.2.2 with
        | some r => some ({ p.1 with head := some r }, some p.2.1)
        | none => none
    | none => none

/-- `LinkedList::pop_back` (`list.rs` 91-107): with a tail present,
`insulate_left` it; install the former left neighbour as new tail if one
exists, otherwise clear (only) the head cell.  Note the code never clears
the tail cell in the latter branch. -/
def LState.pop_back [Inhabited V] (st : LState V) : LState V × Option V :=
  match st.tail with
  | some t =>
      let p := st.insulate_left t
      match p.2.2 with
      | some l => ({ p.1 with tail := some l }, some p.2.1)
      | none => ({ p.1 with head := none }, some p.2.1)
  | none => (st, none)

/-- `NodeIterator` (`node.rs` 232-257): walk `right` links collecting
values.  The iterator is lazy and unbounded in the source; on the chains
produced by the list operations it stops at the first absent `right`, so
a fuel bound of the number of allocated nodes is exact. -/
def LState.walk [Inhabited V] (st : LState V) : Nat → Option Nat → List V
  | 0, _ => []
  | _ + 1, none => []
  | fuel + 1, some n => st.value n :: st.walk fuel (st.routes n).right

/-- `list.head().into_iter().collect()`: the observable contents. -/
def LState.toList [Inhabited V] (st : LState V) : List V :=
  st.walk st.nodes.length st.head

/-- Decidable guard used as a theorem hypothesis: an optional neighbour
handle of `s`, when present, denotes an allocated node other than `s`. -/
def LState.ok_nbr (st : LState V) (s : Nat) : Option Nat → Bool
  | none => true
  | some l => decide (l < st.nodes.length ∧ l ≠ s)

/-- The quiescently reachable states: everything producible from a fresh
list by the four public operations (a `pop_front` step exists only when
no unchecked unwrap failed). -/
inductive Reachable [Inhabited V] : LState V → Prop
  | init : Reachable LState.new
  | push_front (v : V) {st : LState V} :
      Reachable st → Reachable (st.push_front v).1
  | push_back (v : V) {st : LState V} :
      Reachable st → Reachable (st.push_back v).1
  | pop_front {st : LState V} {p : LState V × Option V} :
      Reachable st → st.pop_front = some p → Reachable p.1
  | pop_back {st : LState V} :
      Reachable st → Reachable st.pop_back.1

/-! ### Basic lemmas about the heap primitives -/

theorem updAt_length {α : Type} :
    ∀ (l : List α) (i : Nat) (f : α → α), (updAt l i f).length = l.length
  | [], _, _ => rfl
  | _ :: _, 0, _ => by simp [updAt]
  | a :: l, n + 1, f => by simp [updAt, updAt_length l n f]

theorem updAt_get_self {α : Type} :
    ∀ (l : List α) (i : Nat) (f : α → α), (updAt l i f)[i]? = l[i]?.map f
  | [], i, f => by simp [updAt]
  | a :: l, 0, f => by simp [updAt]
  | a :: l, n + 1, f => by
      simp only [updAt, List.getElem?_cons_succ]
      exact updAt_get_self l n f

theorem updAt_get_ne {α : Type} :
    ∀ (l : List α) (i j : Nat) (f : α → α), j ≠ i → (updAt l i f)[j]? = l[j]?
  | [], _, _, _, _ => by simp [updAt]
  | a :: l, 0, 0, f, h => absurd rfl h
  | a :: l, 0, j + 1, f, h => by simp [updAt]
  | a :: l, i + 1, 0, f, h => by simp [updAt]
  | a :: l, i + 1, j + 1, f, h => by
      simp only [updAt, List.getElem?_cons_succ]
      exact updAt_get_ne l i j f (fun e => h (by rw [e]))

theorem get_append_lt {α : Type} :
    ∀ (l : List α) (x : α) (j : Nat), j < l.length → (l ++ [x])[j]? = l[j]?
  | [], x, j, h => absurd h (by simp)
  | a :: l, x, 0, h => by simp
  | a :: l, x, j + 1, h => by
      simp only [List.cons_append, List.getElem?_cons_succ]
      exact get_append_lt l x j (Nat.lt_of_succ_lt_succ h)

theorem get_append_self {α : Type} :
    ∀ (l : List α) (x : α), (l ++ [x])[l.length]? = some x
  | [], x => rfl
  | a :: l, x => by
      simp only [List.cons_append, List.length_cons, List.getElem?_cons_succ]
      exact get_append_self l x

theorem length_set_routes (st : LState V) (i : Nat) (r : Routes) :
    (st.set_routes i r).nodes.length = st.nodes.length := by
  simp [LState.set_routes, updAt_length]

theorem head_set_routes (st : LState V) (i : Nat) (r : Routes) :
    (st.set_routes i r).head = st.head := rfl

theorem tail_set_routes (st : LState V) (i : Nat) (r : Routes) :
    (st.set_routes i r).tail = st.tail := rfl

theorem routes_set_routes_self (st : LState V) (i : Nat) (r : Routes)
    (h : i < st.nodes.length) : (st.set_routes i r).routes i = r := by
  have : ∃ nd, st.nodes[i]? = some nd := by
    cases e : st.nodes[i]? with
    | some nd => exact ⟨nd, rfl⟩
    | none =>
        rw [List.getElem?_eq_none_iff] at e
        omega
  obtain ⟨nd, hnd⟩ := this
  simp [LState.set_routes, LState.routes, updAt_get_self, hnd]

theorem routes_set_routes_ne (st : LState V) (i j : Nat) (r : Routes)
    (h : j ≠ i) : (st.set_routes i r).routes j = st.routes j := by
  simp [LState.set_routes, LState.routes, updAt_get_ne _ _ _ _ h]

theorem value_set_routes [Inhabited V] (st : LState V) (i j : Nat) (r : Routes) :
    (st.set_routes i r).value j = st.value j := by
  by_cases h : j = i
  · subst h
    simp only [LState.set_routes, LState.value, updAt_get_self]
    cases st.nodes[j]? <;> rfl
  · simp [LState.set_routes, LState.value, updAt_get_ne _ _ _ _ h]

theorem length_set_left (st : LState V) (i : Nat) (x : Option Nat) :
    (st.set_left i x).nodes.length = st.nodes.length :=
  length_set_routes ..

theorem length_set_right (st : LState V) (i : Nat) (x : Option Nat) :
    (st.set_right i x).nodes.length = st.nodes.length :=
  length_set_routes ..

theorem routes_set_left_self (st : LState V) (i : Nat) (x : Option Nat)
    (h : i < st.nodes.length) :
    (st.set_left i x).routes i = ⟨x, (st.routes i).right⟩ :=
  routes_set_routes_self _ _ _ h

theorem routes_set_left_ne (st : LState V) (i j : Nat) (x : Option Nat)
    (h : j ≠ i) : (st.set_left i x).routes j = st.routes j :=
  routes_set_routes_ne _ _ _ _ h

theorem routes_set_right_self (st : LState V) (i : Nat) (x : Option Nat)
    (h : i < st.nodes.length) :
    (st.set_right i x).routes i = ⟨(st.routes i).left, x⟩ :=
  routes_set_routes_self _ _ _ h

theorem routes_set_right_ne (st : LState V) (i j : Nat) (x : Option Nat)
    (h : j ≠ i) : (st.set_right i x).routes j = st.routes j :=
  routes_set_routes_ne _ _ _ _ h

theorem value_set_left [Inhabited V] (st : LState V) (i j : Nat) (x : Option Nat) :
    (st.set_left i x).value j = st.value j :=
  value_set_routes ..

theorem value_set_right [Inhabited V] (st : LState V) (i j : Nat) (x : Option Nat) :
    (st.set_right i x).value j = st.value j :=
  value_set_routes ..

theorem routes_append (st : LState V) (nd : NodeData V) (hd tl : Option Nat)
    (j : Nat) (h : j < st.nodes.length) :
    (LState.mk (st.nodes ++ [nd]) hd tl).routes j = st.routes j := by
  simp [LState.routes, get_append_lt _ _ _ h]

theorem routes_append_self (st : LState V) (nd : NodeData V) (hd tl : Option Nat) :
    (LState.mk (st.nodes ++ [nd]) hd tl).routes st.nodes.length = nd.routes := by
  simp [LState.routes, get_append_self]

theorem value_append [Inhabited V] (st : LState V) (nd : NodeData V)
    (hd tl : Option Nat) (j : Nat) (h : j < st.nodes.length) :
    (LState.mk (st.nodes ++ [nd]) hd tl).value j = st.value j := by
  simp [LState.value, get_append_lt _ _ _ h]

theorem value_append_self [Inhabited V] (st : LState V) (nd : NodeData V)
    (hd tl : Option Nat) :
    (LState.mk (st.nodes ++ [nd]) hd tl).value st.nodes.length = nd.value := by
  simp [LState.value, get_append_self]

/-! ### Chains: the shape of a well-linked list -/

/-- First element of a list of handles, with a fallback. -/
def ohead : List Nat → Option Nat → Option Nat
  | [], next => next
  | a :: _, _ => some a

/-- Last element of a list of handles, with a fallback. -/
def olast : List Nat → Option Nat → Option Nat
  | [], prev => prev
  | a :: rest, _ => olast rest (some a)

/-- `st.seg prev c next`: the handles in `c` are linked consecutively,
the first pointing left to `prev`, the last pointing right to `next`. -/
def LState.seg (st : LState V) : Option Nat → List Nat → Option Nat → Bool
  | _, [], _ => true
  | prev, a :: rest, next =>
      decide (st.routes a = ⟨prev, ohead rest next⟩) && st.seg (some a) rest next

/-- A state is well-formed along chain `c`: the chain is doubly linked
end to end, its handles are distinct allocated nodes, the tail cell holds
its last element, and the head cell holds its first element — or is
empty, which the code can also produce (see `pop_back`). -/
def good (st : LState V) (c : List Nat) : Prop :=
  st.seg none c none = true ∧ c.Nodup ∧ (∀ n ∈ c, n < st.nodes.length) ∧
  st.tail = olast c none ∧ (st.head = ohead c none ∨ st.head = none)

/-- The structural invariant actually maintained by the code: some chain
fits the state. -/
def Inv (st : LState V) : Prop := ∃ c, good st c

theorem ohead_ne_nil (c : List Nat) (p q : Option Nat) (h : c ≠ []) :
    ohead c p = ohead c q := by
  cases c with
  | nil => exact absurd rfl h
  | cons a rest => rfl

theorem ohead_append (c d : List Nat) (next : Option Nat) :
    ohead (c ++ d) next = ohead c (ohead d next) := by
  cases c <;> rfl

theorem olast_append (c d : List Nat) (prev : Option Nat) :
    olast (c ++ d) prev = olast d (olast c prev) := by
  induction c generalizing prev with
  | nil => rfl
  | cons a rest ih => simp [olast, ih]

theorem olast_snoc (c : List Nat) (m : Nat) (prev : Option Nat) :
    olast (c ++ [m]) prev = some m := by
  rw [olast_append]; rfl

theorem olast_ne_nil (c : List Nat) (p q : Option Nat) (h : c ≠ []) :
    olast c p = olast c q := by
  cases c with
  | nil => exact absurd rfl h
  | cons a rest => rfl

theorem olast_some (c : List Nat) (x : Nat) : ∃ y, olast c (some x) = some y := by
  induction c generalizing x with
  | nil => exact ⟨x, rfl⟩
  | cons a rest ih => exact ih a

theorem olast_mem : ∀ (c : List Nat) (p : Option Nat) (t : Nat),
    olast c p = some t → t ∈ c ∨ p = some t
  | [], p, t, h => Or.inr h
  | a :: rest, p, t, h => by
      rcases olast_mem rest (some a) t h with hm | he
      · exact Or.inl (List.mem_cons_of_mem _ hm)
      · exact Or.inl (by simp [Option.some.inj he])

theorem exists_snoc : ∀ (c : List Nat) (t : Nat),
    olast c none = some t → ∃ c2, c = c2 ++ [t]
  | [], t, h => by simp [olast] at h
  | a :: rest, t, h => by
      by_cases hne : rest = []
      · subst hne
        simp only [olast] at h
        exact ⟨[], by simp [Option.some.inj h]⟩
      · have h2 : olast rest none = some t := by
          rw [olast_ne_nil rest none (some a) hne]
          exact h
        obtain ⟨c2, hc2⟩ := exists_snoc rest t h2
        exact ⟨a :: c2, by rw [List.cons_append, hc2]⟩

theorem nodup_snoc : ∀ (c : List Nat) (m : Nat), c.Nodup → m ∉ c →
    (c ++ [m]).Nodup
  | [], m, _, _ => List.nodup_cons.mpr ⟨List.not_mem_nil m, List.nodup_nil⟩
  | a :: c, m, h1, h2 => by
      rw [List.nodup_cons] at h1
      rw [List.cons_append, List.nodup_cons]
      refine ⟨?_, nodup_snoc c m h1.2 (fun hm => h2 (List.mem_cons_of_mem _ hm))⟩
      intro hmem
      rcases List.mem_append.mp hmem with h | h
      · exact h1.1 h
      · rw [List.mem_singleton] at h
        subst h
        exact h2 (List.mem_cons_self _ _)

theorem nodup_unsnoc : ∀ (c : List Nat) (m : Nat), (c ++ [m]).Nodup →
    c.Nodup ∧ m ∉ c
  | [], m, _ => ⟨List.nodup_nil, List.not_mem_nil m⟩
  | a :: c, m, h => by
      rw [List.cons_append, List.nodup_cons] at h
      obtain ⟨ih1, ih2⟩ := nodup_unsnoc c m h.2
      refine ⟨List.nodup_cons.mpr ⟨fun hm => h.1 (List.mem_append_left _ hm), ih1⟩, ?_⟩
      intro hm
      rcases List.mem_cons.mp hm with rfl | hm2
      · exact h.1 (List.mem_append_right _ (List.mem_singleton.mpr rfl))
      · exact ih2 hm2

theorem seg_congr (st1 st2 : LState V) :
    ∀ (c : List Nat) (prev next : Option Nat),
    (∀ n ∈ c, st2.routes n = st1.routes n) →
    st2.seg prev c next = st1.seg prev c next
  | [], _, _, _ => rfl
  | a :: rest, prev, next, h => by
      simp only [LState.seg]
      rw [h a (List.mem_cons_self _ _),
        seg_congr st1 st2 rest (some a) next
          (fun n hn => h n (List.mem_cons_of_mem _ hn))]

theorem seg_append (st : LState V) :
    ∀ (c d : List Nat) (prev next : Option Nat),
    st.seg prev (c ++ d) next =
      (st.seg prev c (ohead d next) && st.seg (olast c prev) d next)
  | [], d, prev, next => by simp [LState.seg, olast]
  | a :: c, d, prev, next => by
      simp only [List.cons_append, LState.seg, ohead_append, olast, List.append_eq]
      rw [seg_append st c d (some a) next, Bool.and_assoc]

/-! ### Walking a chain -/

theorem walk_none [Inhabited V] (st : LState V) (fuel : Nat) :
    st.walk fuel none = [] := by
  cases fuel <;> rfl

theorem walk_seg [Inhabited V] (st : LState V) :
    ∀ (c : List Nat) (prev : Option Nat), st.seg prev c none = true →
    ∀ fuel, c.length ≤ fuel → st.walk fuel (ohead c none) = c.map st.value
  | [], prev, h, fuel, hf => by simp [ohead, walk_none]
  | a :: rest, prev, h, fuel, hf => by
      simp only [LState.seg, Bool.and_eq_true, decide_eq_true_eq] at h
      cases fuel with
      | zero => exact absurd hf (by simp)
      | succ f =>
          simp only [ohead, LState.walk, List.map]
          rw [h.1]
          have : ohead rest none = ohead rest none := rfl
          rw [show (Routes.mk prev (ohead rest none)).right = ohead rest none from rfl]
          rw [walk_seg st rest (some a) h.2 f (Nat.le_of_succ_le_succ hf)]

theorem chain_length_le (c : List Nat) (N : Nat) (hnd : c.Nodup)
    (hb : ∀ n ∈ c, n < N) : c.length ≤ N := by
  have h1 : c.toFinset.card = c.length := List.toFinset_card_of_nodup hnd
  have h2 : c.toFinset ⊆ Finset.range N := by
    intro x hx
    rw [List.mem_toFinset] at hx
    exact Finset.mem_range.mpr (hb x hx)
  have h3 := Finset.card_le_card h2
  rw [h1, Finset.card_range] at h3
  exact h3

theorem toList_good [Inhabited V] (st : LState V) (c : List Nat)
    (hg : good st c) (hh : st.head = ohead c none) :
    st.toList = c.map st.value := by
  obtain ⟨hseg, hnd, hbd, _, _⟩ := hg
  rw [LState.toList, hh]
  exact walk_seg st c none hseg st.nodes.length (chain_length_le c _ hnd hbd)

theorem toList_none [Inhabited V] (st : LState V) (hh : st.head = none) :
    st.toList = [] := by
  rw [LState.toList, hh, walk_none]

/-! ### Invariant preservation: the push operations -/

theorem good_reshape (Y : LState V) (hd tl : Option Nat) (c : List Nat)
    (hseg : Y.seg none c none = true) (hnd : c.Nodup)
    (hbd : ∀ n ∈ c, n < Y.nodes.length)
    (htl : tl = olast c none) (hhd : hd = ohead c none ∨ hd = none) :
    good (LState.mk Y.nodes hd tl) c := by
  refine ⟨?_, hnd, ?_, htl, hhd⟩
  · have he : (LState.mk Y.nodes hd tl).seg none c none = Y.seg none c none :=
      seg_congr _ _ c none none (fun n _ => rfl)
    rw [he, hseg]
  · intro n hn
    exact hbd n hn

theorem good_push_empty (st : LState V) (v : V) :
    good (LState.mk (st.nodes ++ [⟨⟨none, none⟩, v⟩])
      (some st.nodes.length) (some st.nodes.length)) [st.nodes.length] := by
  refine ⟨?_, by simp, ?_, rfl, Or.inl rfl⟩
  · simp only [LState.seg, ohead, Bool.and_true, decide_eq_true_eq]
    rw [routes_append_self]
  · intro n hn
    rw [List.mem_singleton] at hn
    subst hn
    simp

theorem push_front_good (st : LState V) (c : List Nat) (v : V)
    (hg : good st c) :
    ∃ d, good (st.push_front v).1 d ∧
      (st.push_front v).1.head = ohead d none := by
  obtain ⟨hseg, hnd, hbd, htl, hhd⟩ := hg
  cases hh : st.head with
  | none =>
      refine ⟨[st.nodes.length], ?_, ?_⟩
      · have hge := good_push_empty st v
        simpa [LState.push_front, hh] using hge
      · simp [LState.push_front, hh, ohead]
  | some h =>
      have hoh : ohead c none = some h := by
        rcases hhd with h1 | h1
        · rw [← h1, hh]
        · rw [hh] at h1; exact absurd h1 (by simp)
      obtain ⟨rest, rfl⟩ : ∃ rest, c = h :: rest := by
        cases c with
        | nil => exact absurd hoh (by simp [ohead])
        | cons a r => exact ⟨r, by rw [Option.some.inj hoh]⟩
      have hlen : h < st.nodes.length := hbd h (List.mem_cons_self _ _)
      simp only [LState.seg, Bool.and_eq_true, decide_eq_true_eq] at hseg
      have hleft : (st.routes h).left = none := by rw [hseg.1]
      -- the no-left branch of insert_left
      refine ⟨st.nodes.length :: h :: rest, ?_, ?_⟩
      · simp only [LState.push_front, hh, LState.insert_left, hleft]
        set st1 : LState V :=
          { nodes := st.nodes ++ [⟨⟨none, some h⟩, v⟩],
            head := some h, tail := st.tail } with hst1
        set st2 := st1.set_left h (some st.nodes.length) with hst2
        have hlen1 : st1.nodes.length = st.nodes.length + 1 := by simp [hst1]
        have hr1 : ∀ j, j < st.nodes.length → st1.routes j = st.routes j := by
          intro j hj
          exact routes_append st _ _ _ j hj
        have hrmid1 : st1.routes st.nodes.length = ⟨none, some h⟩ :=
          routes_append_self st _ _ _
        have hr2ne : ∀ j, j ≠ h → st2.routes j = st1.routes j := by
          intro j hj
          exact routes_set_left_ne st1 h j _ hj
        have hmid_ne_h : st.nodes.length ≠ h := by omega
        have hr2mid : st2.routes st.nodes.length = ⟨none, some h⟩ := by
          rw [hr2ne _ hmid_ne_h, hrmid1]
        have hr2h : st2.routes h = ⟨some st.nodes.length, ohead rest none⟩ := by
          rw [hst2, routes_set_left_self st1 h _ (by omega), hr1 h hlen, hseg.1]
        apply good_reshape
        · simp only [LState.seg, Bool.and_eq_true, decide_eq_true_eq]
          refine ⟨by rw [hr2mid]; rfl, by rw [hr2h], ?_⟩
          have hcg : st2.seg (some h) rest none = st.seg (some h) rest none := by
            apply seg_congr
            intro n hn
            have hnh : n ≠ h := by
              rw [List.nodup_cons] at hnd
              intro e; subst e; exact hnd.1 hn
            have hnlt : n < st.nodes.length := hbd n (List.mem_cons_of_mem _ hn)
            rw [hr2ne n hnh, hr1 n hnlt]
          rw [hcg]
          exact hseg.2
        · rw [List.nodup_cons]
          refine ⟨?_, hnd⟩
          intro hmem
          exact absurd (hbd _ hmem) (by omega)
        · intro n hn
          have hl2 : st2.nodes.length = st.nodes.length + 1 := by
            rw [hst2, length_set_left, hlen1]
          rw [hl2]
          rcases List.mem_cons.mp hn with rfl | hn2
          · omega
          · exact Nat.lt_succ_of_lt (hbd n hn2)
        · have hstt : st2.tail = st.tail := rfl
          rw [hstt, htl]
          simp only [olast]
        · exact Or.inl rfl
      · simp [LState.push_front, hh, LState.insert_left, hleft, ohead]

theorem push_back_good (st : LState V) (c : List Nat) (v : V)
    (hg : good st c) :
    ∃ d, good (st.push_back v).1 d := by
  obtain ⟨hseg, hnd, hbd, htl, hhd⟩ := hg
  cases ht : st.tail with
  | none =>
      have hh : st.head = none := by
        have hc : c = [] := by
          cases c with
          | nil => rfl
          | cons a r =>
              rw [ht] at htl
              obtain ⟨y, hy⟩ := olast_some r a
              rw [show olast (a :: r) none = olast r (some a) from rfl, hy] at htl
              exact absurd htl (by simp)
        subst hc
        rcases hhd with h1 | h1
        · exact h1
        · exact h1
      refine ⟨[st.nodes.length], ?_⟩
      have hge := good_push_empty st v
      simpa [LState.push_back, ht] using hge
  | some t =>
      have htt : olast c none = some t := by rw [← htl, ht]
      obtain ⟨c2, rfl⟩ := exists_snoc c t htt
      have hlen : t < st.nodes.length := hbd t (List.mem_append_right _ (by simp))
      rw [seg_append] at hseg
      simp only [Bool.and_eq_true] at hseg
      have hsegt := hseg.2
      simp only [LState.seg, ohead, Bool.and_true, Bool.and_eq_true,
        decide_eq_true_eq] at hsegt
      have hright : (st.routes t).right = none := by rw [hsegt]
      refine ⟨(c2 ++ [t]) ++ [st.nodes.length], ?_⟩
      simp only [LState.push_back, ht, LState.insert_right, hright]
      set st1 : LState V :=
        { nodes := st.nodes ++ [⟨⟨some t, none⟩, v⟩],
          head := st.head, tail := some t } with hst1
      set st2 := st1.set_right t (some st.nodes.length) with hst2
      have hlen1 : st1.nodes.length = st.nodes.length + 1 := by simp [hst1]
      have hr1 : ∀ j, j < st.nodes.length → st1.routes j = st.routes j := by
        intro j hj
        exact routes_append st _ _ _ j hj
      have hrmid1 : st1.routes st.nodes.length = ⟨some t, none⟩ :=
        routes_append_self st _ _ _
      have hr2ne : ∀ j, j ≠ t → st2.routes j = st1.routes j := by
        intro j hj
        exact routes_set_right_ne st1 t j _ hj
      have hmid_ne_t : st.nodes.length ≠ t := by omega
      have hr2mid : st2.routes st.nodes.length = ⟨some t, none⟩ := by
        rw [hr2ne _ hmid_ne_t, hrmid1]
      have hr2t : st2.routes t = ⟨olast c2 none, some st.nodes.length⟩ := by
        rw [hst2, routes_set_right_self st1 t _ (by omega), hr1 t hlen, hsegt]
      have hnotin : st.nodes.length ∉ c2 ++ [t] := by
        intro hmem
        exact absurd (hbd _ hmem) (by omega)
      have htnotc2 : t ∉ c2 := (nodup_unsnoc c2 t hnd).2
      apply good_reshape
      · rw [seg_append]
        simp only [Bool.and_eq_true]
        constructor
        · rw [seg_append]
          simp only [Bool.and_eq_true]
          constructor
          · have : st2.seg none c2 (ohead [t] (ohead [st.nodes.length] none)) =
                st.seg none c2 (ohead [t] (ohead [st.nodes.length] none)) := by
              apply seg_congr
              intro n hn
              have hnt : n ≠ t := fun e => htnotc2 (e ▸ hn)
              have hnlt : n < st.nodes.length := hbd n (List.mem_append_left _ hn)
              rw [hr2ne n hnt, hr1 n hnlt]
            rw [this]
            simpa [ohead] using hseg.1
          · simp only [LState.seg, ohead, Bool.and_true, decide_eq_true_eq]
            rw [hr2t]
          -- remaining: the new last node
        · simp only [LState.seg, ohead, Bool.and_true, decide_eq_true_eq]
          rw [olast_snoc, hr2mid]
      · exact nodup_snoc _ _ hnd hnotin
      · intro n hn
        have hl2 : st2.nodes.length = st.nodes.length + 1 := by
          rw [hst2, length_set_right, hlen1]
        rw [hl2]
        rcases List.mem_append.mp hn with h1 | h1
        · exact Nat.lt_succ_of_lt (hbd n h1)
        · rw [List.mem_singleton] at h1
          omega
      · rw [olast_snoc]
      · have hsh : st2.head = st.head := rfl
        rw [hsh]
        rcases hhd with h1 | h1
        · refine Or.inl ?_
          rw [h1, ohead_append (c2 ++ [t]) [st.nodes.length] none]
          apply ohead_ne_nil
          simp
        · exact Or.inr h1

theorem Inv_push_front (st : LState V) (v : V) (hg : Inv st) :
    Inv (st.push_front v).1 := by
  obtain ⟨c, hc⟩ := hg
  obtain ⟨d, hd, _⟩ := push_front_good st c v hc
  exact ⟨d, hd⟩

theorem Inv_push_back (st : LState V) (v : V) (hg : Inv st) :
    Inv (st.push_back v).1 := by
  obtain ⟨c, hc⟩ := hg
  exact push_back_good st c v hc

/-! ### Branch equations for the pop operations -/

theorem pop_front_eq_empty [Inhabited V] (st : LState V)
    (hte : st.tail = st.head) (hh : st.head = none) :
    st.pop_front = some (st, none) := by
  simp [LState.pop_front, hte, hh]

theorem pop_front_eq_single [Inhabited V] (st : LState V) (h : Nat)
    (hte : st.tail = st.head) (hh : st.head = some h) :
    st.pop_front = some (LState.mk st.nodes none none, some (st.value h)) := by
  simp [LState.pop_front, hte, hh]

theorem pop_front_eq_multi [Inhabited V] (st : LState V) (h h1 : Nat)
    (xl : Option Nat) (hte : ¬ st.tail = st.head) (hh : st.head = some h)
    (hr : st.routes h = ⟨xl, some h1⟩) :
    st.pop_front = some
      (LState.mk ((st.set_left h1 xl).set_right h none).nodes (some h1)
        ((st.set_left h1 xl).set_right h none).tail,
       some (st.value h)) := by
  have hte2 : ¬ st.tail = some h := by rw [← hh]; exact hte
  simp [LState.pop_front, hh, hte2, LState.insulate_right, hr]

theorem pop_back_eq_none [Inhabited V] (st : LState V) (ht : st.tail = none) :
    st.pop_back = (st, none) := by
  simp [LState.pop_back, ht]

theorem pop_back_eq_sole [Inhabited V] (st : LState V) (t : Nat)
    (xr : Option Nat) (ht : st.tail = some t) (hr : st.routes t = ⟨none, xr⟩) :
    st.pop_back =
      (LState.mk (st.set_left t none).nodes none (st.set_left t none).tail,
       some (st.value t)) := by
  simp [LState.pop_back, ht, LState.insulate_left, hr]

theorem pop_back_eq_left [Inhabited V] (st : LState V) (t l : Nat)
    (xr : Option Nat) (ht : st.tail = some t) (hr : st.routes t = ⟨some l, xr⟩) :
    st.pop_back =
      (LState.mk ((st.set_right l xr).set_left t none).nodes
        ((st.set_right l xr).set_left t none).head (some l),
       some (st.value t)) := by
  simp [LState.pop_back, ht, LState.insulate_left, hr]

/-! ### The pop operations along a chain -/

theorem pop_front_spec [Inhabited V] (st : LState V) (c : List Nat) (h : Nat)
    (hg : good st c) (hh : st.head = some h) :
    ∃ st2, st.pop_front = some (st2, some (st.value h)) ∧
      good st2 c.tail ∧ st2.head = ohead c.tail none ∧
      st2.routes h = ⟨none, none⟩ ∧
      (∀ j, st2.value j = st.value j) ∧
      st2.nodes.length = st.nodes.length ∧
      st2.toList = st.toList.tail ∧
      (st.tail = st.head → st2.head = none ∧ st2.tail = none) ∧
      (st.tail ≠ st.head → st2.head = (st.routes h).right) := by
  have hg0 := hg
  obtain ⟨hseg, hnd, hbd, htl, hhd⟩ := hg
  have hoh : ohead c none = some h := by
    rcases hhd with h1 | h1
    · rw [← h1, hh]
    · rw [hh] at h1; exact absurd h1 (by simp)
  obtain ⟨rest, rfl⟩ : ∃ rest, c = h :: rest := by
    cases c with
    | nil => exact absurd hoh (by simp [ohead])
    | cons a r => exact ⟨r, by rw [Option.some.inj hoh]⟩
  have hlen : h < st.nodes.length := hbd h (List.mem_cons_self _ _)
  have hseg0 := hseg
  simp only [LState.seg, Bool.and_eq_true, decide_eq_true_eq] at hseg
  have hsTL : st.toList = (st.value h) :: rest.map st.value := by
    rw [toList_good st _ hg0 (by rw [hh, hoh]), List.map]
  by_cases hte : st.tail = st.head
  · -- zero-or-one element branch: here exactly one, and the chain is [h]
    have hth : st.tail = some h := by rw [hte, hh]
    have hrest : rest = [] := by
      by_contra hne
      have hx : olast rest none = some h := by
        rw [olast_ne_nil rest none (some h) hne]
        rw [hth] at htl
        exact htl.symm
      rcases olast_mem rest none h hx with hm | he
      · exact (List.nodup_cons.mp hnd).1 hm
      · exact absurd he (by simp)
    subst hrest
    refine ⟨LState.mk st.nodes none none, pop_front_eq_single st h hte hh,
      ?_, rfl, ?_, fun j => rfl, rfl, ?_, fun _ => ⟨rfl, rfl⟩,
      fun hne => absurd hte hne⟩
    · exact ⟨rfl, by simp, by intro n hn; simp at hn, rfl, Or.inr rfl⟩
    · have he : (LState.mk st.nodes none none).routes h = st.routes h := rfl
      rw [he, hseg.1]
      rfl
    · rw [toList_none _ rfl, hsTL]
      rfl
  · -- multi-element branch
    obtain ⟨h1, rest2, rfl⟩ : ∃ h1 rest2, rest = h1 :: rest2 := by
      cases hr : rest with
      | nil =>
          subst hr
          rw [htl, hh] at hte
          simp [olast] at hte
      | cons b r2 => exact ⟨b, r2, rfl⟩
    have hs1 : st.routes h = ⟨none, some h1⟩ := by
      have := hseg.1
      simpa [ohead] using this
    have hseg2 := hseg.2
    simp only [LState.seg, Bool.and_eq_true, decide_eq_true_eq] at hseg2
    have hh1h : h1 ≠ h := by
      have := (List.nodup_cons.mp hnd).1
      intro e
      exact this (e ▸ List.mem_cons_self _ _)
    have hh1len : h1 < st.nodes.length :=
      hbd h1 (List.mem_cons_of_mem _ (List.mem_cons_self _ _))
    set stA := st.set_left h1 none with hstA
    set stB := stA.set_right h none with hstB
    have hrBh1 : stB.routes h1 = ⟨none, ohead rest2 none⟩ := by
      rw [hstB, routes_set_right_ne stA h h1 _ hh1h, hstA,
        routes_set_left_self st h1 none hh1len]
      have : (st.routes h1).right = ohead rest2 none := by rw [hseg2.1]
      rw [this]
    have hrBh : stB.routes h = ⟨none, none⟩ := by
      rw [hstB, routes_set_right_self stA h none (by rw [hstA, length_set_left]; omega),
        hstA, routes_set_left_ne st h1 h none (fun e => hh1h e.symm), hs1]
    have hrBrest : ∀ n ∈ rest2, stB.routes n = st.routes n := by
      intro n hn
      have hnh : n ≠ h := by
        intro e
        exact (List.nodup_cons.mp hnd).1 (e ▸ List.mem_cons_of_mem _ hn)
      have hnh1 : n ≠ h1 := by
        intro e
        exact (List.nodup_cons.mp (List.nodup_cons.mp hnd).2).1 (e ▸ hn)
      rw [hstB, routes_set_right_ne stA h n _ hnh, hstA,
        routes_set_left_ne st h1 n _ hnh1]
    have hlenB : stB.nodes.length = st.nodes.length := by
      rw [hstB, length_set_right, hstA, length_set_left]
    have hvalB : ∀ j, stB.value j = st.value j := by
      intro j
      rw [hstB, value_set_right, hstA, value_set_left]
    have htlB : stB.tail = st.tail := rfl
    refine ⟨LState.mk stB.nodes (some h1) stB.tail,
      pop_front_eq_multi st h h1 none hte hh hs1, ?_, rfl, by exact hrBh,
      fun j => hvalB j, by exact hlenB, ?_, fun he => absurd he hte, ?_⟩
    · apply good_reshape
      · simp only [LState.seg, Bool.and_eq_true, decide_eq_true_eq]
        refine ⟨by rw [hrBh1], ?_⟩
        have hcg : stB.seg (some h1) rest2 none = st.seg (some h1) rest2 none :=
          seg_congr st stB rest2 (some h1) none hrBrest
        rw [hcg]
        exact hseg2.2
      · exact (List.nodup_cons.mp hnd).2
      · intro n hn
        rw [hlenB]
        exact hbd n (List.mem_cons_of_mem _ hn)
      · rw [htlB, htl]
        simp only [olast]
      · exact Or.inl rfl
    · -- the remaining contents
      have hgB : good (LState.mk stB.nodes (some h1) stB.tail) (h1 :: rest2) := by
        apply good_reshape
        · simp only [LState.seg, Bool.and_eq_true, decide_eq_true_eq]
          refine ⟨by rw [hrBh1], ?_⟩
          have hcg : stB.seg (some h1) rest2 none = st.seg (some h1) rest2 none :=
            seg_congr st stB rest2 (some h1) none hrBrest
          rw [hcg]
          exact hseg2.2
        · exact (List.nodup_cons.mp hnd).2
        · intro n hn
          rw [hlenB]
          exact hbd n (List.mem_cons_of_mem _ hn)
        · rw [htlB, htl]
          simp only [olast]
        · exact Or.inl rfl
      rw [toList_good _ _ hgB rfl, hsTL]
      have hve : (LState.mk stB.nodes (some h1) stB.tail).value = st.value := by
        funext j
        exact hvalB j
      rw [List.tail_cons, hve]
    · intro _
      rw [hs1]

theorem ohead_nil (x : Option Nat) : ohead [] x = x := rfl

theorem ohead_cons (a : Nat) (r : List Nat) (x : Option Nat) :
    ohead (a :: r) x = some a := rfl

theorem dropLast_snoc {α : Type} : ∀ (l : List α) (a : α), (l ++ [a]).dropLast = l
  | [], a => rfl
  | b :: l, a => by
      rw [List.cons_append]
      rw [show ((b :: (l ++ [a])).dropLast) = b :: (l ++ [a]).dropLast from ?_]
      · rw [dropLast_snoc l a]
      · cases hl : l ++ [a] with
        | nil => exact absurd hl (by simp)
        | cons c r => rfl

theorem pop_back_spec [Inhabited V] (st : LState V) (c : List Nat) (t : Nat)
    (hg : good st c) (ht : st.tail = some t) :
    ∃ st2, st.pop_back = (st2, some (st.value t)) ∧
      Inv st2 ∧
      st2.routes t = ⟨none, none⟩ ∧
      (∀ j, st2.value j = st.value j) ∧
      st2.nodes.length = st.nodes.length ∧
      st2.toList = st.toList.dropLast ∧
      (∀ l, (st.routes t).left = some l → st2.tail = some l) ∧
      ((st.routes t).left = none → st2.head = none) := by
  have hg0 := hg
  obtain ⟨hseg, hnd, hbd, htl, hhd⟩ := hg
  have htt : olast c none = some t := by rw [← htl, ht]
  obtain ⟨c2, rfl⟩ := exists_snoc c t htt
  have hlent : t < st.nodes.length := hbd t (List.mem_append_right _ (by simp))
  rw [seg_append] at hseg
  simp only [Bool.and_eq_true] at hseg
  have hsegt := hseg.2
  simp only [LState.seg, ohead, Bool.and_true, Bool.and_eq_true,
    decide_eq_true_eq] at hsegt
  obtain ⟨hnd2, htno⟩ := nodup_unsnoc c2 t hnd
  cases hc2 : c2 with
  | nil =>
      subst hc2
      have hrt : st.routes t = ⟨none, none⟩ := by
        rw [hsegt]
        rfl
      have heq := pop_back_eq_sole st t none ht hrt
      set stA := st.set_left t none with hstA
      have hrAt : stA.routes t = ⟨none, none⟩ := by
        rw [hstA, routes_set_left_self st t none hlent, hrt]
      have hvA : ∀ j, stA.value j = st.value j := by
        intro j
        rw [hstA, value_set_left]
      have hlA : stA.nodes.length = st.nodes.length := by
        rw [hstA, length_set_left]
      have htA : stA.tail = st.tail := rfl
      refine ⟨LState.mk stA.nodes none stA.tail, heq, ?_, by exact hrAt,
        fun j => hvA j, by exact hlA, ?_, ?_, fun _ => rfl⟩
      · refine ⟨[t], ?_⟩
        apply good_reshape
        · simp only [LState.seg, ohead_nil, Bool.and_true, decide_eq_true_eq]
          rw [hrAt]
        · simp
        · intro n hn
          rw [List.mem_singleton] at hn
          subst hn
          rw [hlA]
          exact hlent
        · rw [htA, ht]
          rfl
        · exact Or.inr rfl
      · rw [toList_none _ rfl]
        rcases hhd with h1 | h1
        · rw [toList_good st _ hg0 (by rw [h1])]
          rfl
        · rw [toList_none _ h1]
          rfl
      · intro l hl
        rw [hrt] at hl
        exact absurd hl (by simp)
  | cons a c2x =>
      have hc2ne : c2 ≠ [] := by rw [hc2]; simp
      obtain ⟨l, hl⟩ : ∃ l, olast c2 none = some l := by
        rw [hc2]
        exact olast_some c2x a
      obtain ⟨c3, hc3⟩ := exists_snoc c2 l hl
      have hrt : st.routes t = ⟨some l, none⟩ := by
        rw [hsegt, hl]
      have hlmem : l ∈ c2 := by
        rcases olast_mem c2 none l hl with hm | he
        · exact hm
        · exact absurd he (by simp)
      have hlt : l ≠ t := fun e => htno (e ▸ hlmem)
      have hlenl : l < st.nodes.length := hbd l (List.mem_append_left _ hlmem)
      have heq := pop_back_eq_left st t l none ht hrt
      set stA := st.set_right l none with hstA
      set stB := stA.set_left t none with hstB
      obtain ⟨hnd3, hlno3⟩ := nodup_unsnoc c3 l (hc3 ▸ hnd2)
      have hseg1 := hseg.1
      rw [hc3, seg_append] at hseg1
      simp only [Bool.and_eq_true] at hseg1
      have hsegl := hseg1.2
      simp only [LState.seg, ohead_nil, Bool.and_true, Bool.and_eq_true,
        decide_eq_true_eq] at hsegl
      have hrBl : stB.routes l = ⟨olast c3 none, none⟩ := by
        rw [hstB, routes_set_left_ne stA t l none hlt, hstA,
          routes_set_right_self st l none hlenl, hsegl]
      have hrBt : stB.routes t = ⟨none, none⟩ := by
        rw [hstB, routes_set_left_self stA t none (by rw [hstA, length_set_right]; omega),
          hstA, routes_set_right_ne st l t none (fun e => hlt e.symm), hrt]
      have hrBc3 : ∀ n ∈ c3, stB.routes n = st.routes n := by
        intro n hn
        have hnl : n ≠ l := fun e => hlno3 (e ▸ hn)
        have hnt : n ≠ t := fun e =>
          htno (e ▸ (hc3 ▸ List.mem_append_left [l] hn))
        rw [hstB, routes_set_left_ne stA t n none hnt, hstA,
          routes_set_right_ne st l n none hnl]
      have hvB : ∀ j, stB.value j = st.value j := by
        intro j
        rw [hstB, value_set_left, hstA, value_set_right]
      have hlB : stB.nodes.length = st.nodes.length := by
        rw [hstB, length_set_left, hstA, length_set_right]
      have hhB : stB.head = st.head := rfl
      have hsegB : stB.seg none c2 none = true := by
        rw [hc3, seg_append]
        simp only [Bool.and_eq_true]
        constructor
        · have hcg : stB.seg none c3 (ohead [l] none) = st.seg none c3 (ohead [l] none) :=
            seg_congr st stB c3 none (ohead [l] none) hrBc3
          rw [hcg]
          have hcg2 : st.seg none c3 (ohead [l] none) =
              st.seg none c3 (ohead [l] (ohead [t] none)) := rfl
          rw [hcg2]
          exact hseg1.1
        · simp only [LState.seg, ohead_nil, Bool.and_true, decide_eq_true_eq]
          rw [hrBl]
      have hgood2 : good (LState.mk stB.nodes stB.head (some l)) c2 := by
        apply good_reshape
        · exact hsegB
        · exact hnd2
        · intro n hn
          rw [hlB]
          exact hbd n (List.mem_append_left _ hn)
        · exact hl.symm
        · rw [hhB]
          rcases hhd with h1 | h1
          · refine Or.inl ?_
            rw [h1, ohead_append]
            exact ohead_ne_nil c2 (ohead [t] none) none hc2ne
          · exact Or.inr h1
      refine ⟨LState.mk stB.nodes stB.head (some l), heq, ⟨c2, hgood2⟩,
        by exact hrBt, fun j => hvB j, by exact hlB, ?_, ?_, ?_⟩
      · -- contents shrink by the last element
        rcases hhd with h1 | h1
        · have hh2 : (LState.mk stB.nodes stB.head (some l)).head = ohead c2 none := by
            rw [show (LState.mk stB.nodes stB.head (some l)).head = st.head from rfl,
              h1, ohead_append]
            exact ohead_ne_nil c2 (ohead [t] none) none hc2ne
          rw [toList_good _ _ hgood2 hh2, toList_good st _ hg0 (by rw [h1])]
          have hve : (LState.mk stB.nodes stB.head (some l)).value = st.value := by
            funext j
            exact hvB j
          rw [hve, List.map_append]
          rw [show List.map st.value [t] = [st.value t] from rfl]
          rw [dropLast_snoc]
        · rw [toList_none _ (by rw [show (LState.mk stB.nodes stB.head (some l)).head =
              st.head from rfl, h1]), toList_none st h1]
          rfl
      · intro l0 hl0
        rw [hrt] at hl0
        rw [Option.some.inj hl0]
      · intro hl0
        rw [hrt] at hl0
        exact absurd hl0 (by simp)

/-! ### Reachability implies the invariant shape -/

theorem Inv_pop_front [Inhabited V] {st : LState V} {p : LState V × Option V}
    (hg : Inv st) (he : st.pop_front = some p) : Inv p.1 := by
  obtain ⟨c, hc⟩ := hg
  cases hh : st.head with
  | some h =>
      obtain ⟨st2, he2, hgood, _⟩ := pop_front_spec st c h hc hh
      rw [he2] at he
      have hp := Option.some.inj he
      rw [← hp]
      exact ⟨c.tail, hgood⟩
  | none =>
      by_cases hte : st.tail = st.head
      · rw [pop_front_eq_empty st hte hh] at he
        have hp := Option.some.inj he
        rw [← hp]
        exact ⟨c, hc⟩
      · have hte2 : ¬ st.tail = none := by rw [← hh]; exact hte
        have hnone : st.pop_front = none := by
          simp [LState.pop_front, hh, hte2]
        rw [hnone] at he
        exact absurd he (by simp)

theorem Inv_pop_back [Inhabited V] (st : LState V) (hg : Inv st) :
    Inv st.pop_back.1 := by
  obtain ⟨c, hc⟩ := hg
  cases ht : st.tail with
  | some t =>
      obtain ⟨st2, he2, hinv, _⟩ := pop_back_spec st c t hc ht
      rw [he2]
      exact hinv
  | none =>
      rw [pop_back_eq_none st ht]
      exact ⟨c, hc⟩

theorem good_new : good (LState.new : LState V) [] := by
  refine ⟨rfl, by simp, ?_, rfl, Or.inl rfl⟩
  intro n hn
  simp at hn

theorem reachable_Inv [Inhabited V] {st : LState V} (hr : Reachable st) :
    Inv st := by
  induction hr with
  | init => exact ⟨[], good_new⟩
  | push_front v hr ih => exact Inv_push_front _ v ih
  | push_back v hr ih => exact Inv_push_back _ v ih
  | pop_front hr he ih => exact Inv_pop_front ih he
  | pop_back hr ih => exact Inv_pop_back _ ih

/-! ### Concrete states used as test vectors -/

/-- The list `[1, 2]` built by `push_back(1); push_back(2)` (node 0 holds
value 1 and is the head, node 1 holds value 2 and is the tail). -/
def twoSt : LState Nat :=
  (((LState.new : LState Nat).push_back 1).1.push_back 2).1

/-- The list `[1, 2, 3]` built by three `push_back` calls. -/
def threeSt : LState Nat :=
  ((((LState.new : LState Nat).push_back 1).1.push_back 2).1.push_back 3).1

/-- The state after `push_back(1); pop_back()` on a fresh list: the code
clears the head cell but leaves the tail cell holding the removed node. -/
def brokenSt : LState Nat :=
  (((LState.new : LState Nat).push_back 1).1.pop_back).1

theorem twoSt_reachable : Reachable twoSt :=
  Reachable.push_back 2 (Reachable.push_back 1 Reachable.init)

theorem threeSt_reachable : Reachable threeSt :=
  Reachable.push_back 3 (Reachable.push_back 2 (Reachable.push_back 1 Reachable.init))

/-! ### The claims -/

/-- C1: the claimed preservation of the structural invariant fails on
`pop_back`.  From the empty list, `push_back 1` then `pop_back` leaves the
head cell empty while the tail cell still holds the removed node 0, so
"the list is non-empty iff the head and tail cells are both present" is
violated; a further `pop_back` even returns the removed value 1 again. -/
theorem c1_pop_back_breaks_invariant :
    brokenSt.head = none ∧ brokenSt.tail = some 0 ∧
    brokenSt.pop_back.2 = some 1 := by
  decide

/-- C7: the claimed impossibility of reaching the unchecked unwraps with
an absent value fails.  After `push_back 1; pop_back` the two boundary
cells hold unequal contents, yet the head cell is empty, so `pop_front`
reaches `unwrap_unchecked` on an absent value (the `none` result of the
model). -/
theorem c7_pop_front_unchecked_reached :
    brokenSt.tail ≠ brokenSt.head ∧ brokenSt.head = none ∧
    brokenSt.pop_front = none := by
  decide

/-- C2: on every reachable state whose head cell is present, `pop_front`
returns the former head's value without reaching an unchecked unwrap; a
one-element list (equal cells) has both boundary cells emptied, otherwise
the former head's right neighbour becomes the new head; the walk from the
head loses exactly its first element. -/
theorem c2_pop_front_nonempty [Inhabited V] (st : LState V) (h : Nat)
    (hr : Reachable st) (hh : st.head = some h) :
    ∃ st2, st.pop_front = some (st2, some (st.value h)) ∧
      st2.toList = st.toList.tail ∧
      (st.tail = st.head → st2.head = none ∧ st2.tail = none) ∧
      (st.tail ≠ st.head → st2.head = (st.routes h).right) := by
  obtain ⟨c, hc⟩ := reachable_Inv hr
  obtain ⟨st2, he, _, _, _, _, _, htL, hsingle, hmulti⟩ :=
    pop_front_spec st c h hc hh
  exact ⟨st2, he, htL, hsingle, hmulti⟩

theorem c2_pop_front_witness :
    ∃ st2, twoSt.pop_front = some (st2, some 1) ∧ st2.toList = [2] := by
  obtain ⟨st2, he, htL, _, _⟩ :=
    c2_pop_front_nonempty twoSt 0 twoSt_reachable rfl
  refine ⟨st2, ?_, ?_⟩
  · rw [he]
    rfl
  · rw [htL]
    rfl

/-- C3: on every reachable state whose tail cell is present, `pop_back`
returns the former tail's value; when the tail had a left neighbour that
neighbour becomes the new tail, and when it had none the head cell is
cleared; the walk from the head loses exactly its last element. -/
theorem c3_pop_back_nonempty [Inhabited V] (st : LState V) (t : Nat)
    (hr : Reachable st) (ht : st.tail = some t) :
    st.pop_back.2 = some (st.value t) ∧
    st.pop_back.1.toList = st.toList.dropLast ∧
    (∀ l, (st.routes t).left = some l → st.pop_back.1.tail = some l) ∧
    ((st.routes t).left = none → st.pop_back.1.head = none) := by
  obtain ⟨c, hc⟩ := reachable_Inv hr
  obtain ⟨st2, he, _, _, _, _, htL, htail, hhead⟩ := pop_back_spec st c t hc ht
  rw [he]
  exact ⟨rfl, htL, htail, hhead⟩

theorem c3_pop_back_witness :
    twoSt.pop_back.2 = some 2 ∧ twoSt.pop_back.1.toList = [1] ∧
    twoSt.pop_back.1.tail = some 0 := by
  obtain ⟨h1, h2, h3, _⟩ := c3_pop_back_nonempty twoSt 1 twoSt_reachable rfl
  refine ⟨by rw [h1]; rfl, by rw [h2]; rfl, h3 0 rfl⟩

/-- C4: `push_back 1; push_back 2` from the empty list walks as `[1, 2]`,
and `push_front 2; push_front 1` walks as `[1, 2]`; moreover, for every
state the node returned by `push_front` is installed into the head cell
and the node returned by `push_back` into the tail cell. -/
theorem c4_push_spec {V : Type} :
    (((LState.new : LState Nat).push_back 1).1.push_back 2).1.toList = [1, 2] ∧
    (((LState.new : LState Nat).push_front 2).1.push_front 1).1.toList = [1, 2] ∧
    (∀ (st : LState V) (v : V),
      (st.push_front v).1.head = some (st.push_front v).2) ∧
    (∀ (st : LState V) (v : V),
      (st.push_back v).1.tail = some (st.push_back v).2) := by
  refine ⟨by decide, by decide, ?_, ?_⟩
  · intro st v
    cases hh : st.head <;> simp [LState.push_front, hh]
  · intro st v
    cases ht : st.tail <;> simp [LState.push_back, ht]

/-- C8: on a state with both boundary cells empty, `pop_front` and
`pop_back` return the absent value and leave the state completely
unchanged (hence may be repeated with no observable effect), and no
unchecked unwrap is reached. -/
theorem c8_pop_empty [Inhabited V] (st : LState V) (hh : st.head = none)
    (ht : st.tail = none) :
    st.pop_front = some (st, none) ∧ st.pop_back = (st, none) :=
  ⟨pop_front_eq_empty st (by rw [ht, hh]) hh, pop_back_eq_none st ht⟩

theorem c8_pop_empty_witness :
    (LState.new : LState Nat).pop_front = some (LState.new, none) ∧
    (LState.new : LState Nat).pop_back = (LState.new, none) :=
  c8_pop_empty LState.new rfl rfl

/-- C10: on every reachable state, a node removed by `pop_front` or by
`pop_back` is observed insulated through a retained handle (both
neighbour fields absent) and its value is unchanged. -/
theorem c10_pop_insulates [Inhabited V] (st : LState V) (hr : Reachable st) :
    (∀ h p, st.head = some h → st.pop_front = some p →
      (p.1.routes h).is_insulate = true ∧ p.1.value h = st.value h) ∧
    (∀ t, st.tail = some t →
      (st.pop_back.1.routes t).is_insulate = true ∧
      st.pop_back.1.value t = st.value t) := by
  obtain ⟨c, hc⟩ := reachable_Inv hr
  constructor
  · intro h p hh hp
    obtain ⟨st2, he, _, _, hrh, hval, _, _, _, _⟩ := pop_front_spec st c h hc hh
    rw [he] at hp
    have hp2 := Option.some.inj hp
    rw [← hp2]
    refine ⟨?_, hval h⟩
    rw [show ((st2, some (st.value h)).1.routes h) = st2.routes h from rfl, hrh]
    rfl
  · intro t ht
    obtain ⟨st2, he, _, hrt, hval, _, _, _, _⟩ := pop_back_spec st c t hc ht
    rw [he]
    refine ⟨?_, hval t⟩
    rw [show ((st2, some (st.value t)).1.routes t) = st2.routes t from rfl, hrt]
    rfl

theorem c10_pop_insulates_witness :
    (twoSt.pop_back.1.routes 1).is_insulate = true ∧
    twoSt.pop_back.1.value 1 = 2 := by
  have h := (c10_pop_insulates twoSt twoSt_reachable).2 1 rfl
  exact ⟨h.1, h.2.trans rfl⟩

theorem final_insulated (Y : LState V) (s : Nat) (hsY : s < Y.nodes.length) :
    ((Y.set_left s none).set_right s none).routes s = ⟨none, none⟩ := by
  have h1 : (Y.set_left s none).routes s = ⟨none, (Y.routes s).right⟩ :=
    routes_set_left_self Y s none hsY
  have h2 : ((Y.set_left s none).set_right s none).routes s =
      ⟨((Y.set_left s none).routes s).left, none⟩ :=
    routes_set_right_self _ s none (by rw [length_set_left]; omega)
  rw [h2, h1]

/-- C5: `insert_left` always succeeds (it is total): it allocates exactly
one new node `n` whose right neighbour is `self = s` and whose left
neighbour is `s`'s former left neighbour (absent if `s` was leftmost),
sets `s.left` to `n`, and — when a former left neighbour `l` exists —
sets `l.right` to `n`, producing the order `… l, n, s …`. -/
theorem c5_insert_left_spec (st : LState V) (s : Nat) (v : V)
    (hs : s < st.nodes.length)
    (hL : st.ok_nbr s (st.routes s).left = true) :
    ∃ st2 n, st.insert_left s v = (st2, n) ∧ n = st.nodes.length ∧
      st2.nodes.length = st.nodes.length + 1 ∧
      (st2.routes n).right = some s ∧
      (st2.routes n).left = (st.routes s).left ∧
      (st2.routes s).left = some n ∧
      (∀ l, (st.routes s).left = some l → (st2.routes l).right = some n) := by
  cases hsl : (st.routes s).left with
  | none =>
      refine ⟨(LState.mk (st.nodes ++ [⟨⟨none, some s⟩, v⟩])
          st.head st.tail).set_left s (some st.nodes.length),
        st.nodes.length, ?_, rfl, ?_, ?_, ?_, ?_, ?_⟩
      · simp [LState.insert_left, hsl]
      · rw [length_set_left]
        simp
      · rw [routes_set_left_ne _ s st.nodes.length _ (by omega),
          routes_append_self]
      · rw [routes_set_left_ne _ s st.nodes.length _ (by omega),
          routes_append_self]
      · rw [routes_set_left_self _ s _ (by simp; omega)]
      · intro l hl
        exact absurd hl (by simp)
  | some l =>
      rw [hsl] at hL
      have hl2 : l < st.nodes.length ∧ l ≠ s := by
        simpa [LState.ok_nbr] using hL
      refine ⟨((LState.mk (st.nodes ++ [⟨⟨some l, some s⟩, v⟩])
          st.head st.tail).set_left s (some st.nodes.length)).set_right l
          (some st.nodes.length),
        st.nodes.length, ?_, rfl, ?_, ?_, ?_, ?_, ?_⟩
      · simp [LState.insert_left, hsl]
      · rw [length_set_right, length_set_left]
        simp
      · rw [routes_set_right_ne _ l st.nodes.length _ (by omega),
          routes_set_left_ne _ s st.nodes.length _ (by omega),
          routes_append_self]
      · rw [routes_set_right_ne _ l st.nodes.length _ (by omega),
          routes_set_left_ne _ s st.nodes.length _ (by omega),
          routes_append_self]
      · rw [routes_set_right_ne _ l s _ (fun e => hl2.2 e.symm),
          routes_set_left_self _ s _ (by simp; omega)]
      · intro l0 hl0
        rw [← Option.some.inj hl0]
        rw [routes_set_right_self _ l _ (by rw [length_set_left]; simp; omega)]

theorem c5_insert_left_witness :
    ∃ st2 n, twoSt.insert_left 1 5 = (st2, n) ∧ n = 2 ∧
      (st2.routes n).right = some 1 ∧ (st2.routes 1).left = some n ∧
      (st2.routes 0).right = some n := by
  obtain ⟨st2, n, he, hn, _, hr1, _, hr2, hr3⟩ :=
    c5_insert_left_spec twoSt 1 5 (by decide) (by decide)
  exact ⟨st2, n, he, hn, hr1, hr2, hr3 0 rfl⟩

/-- C6: `insulate` (detach-both) returns self's value with the former
left and right handles, relinks the left neighbour's right pointer to the
former right handle and the right neighbour's left pointer to the former
left handle (each relink skipped when the corresponding neighbour is
absent — every other node is untouched), and leaves self insulated. -/
theorem c6_insulate_spec [Inhabited V] (st : LState V) (s : Nat)
    (hs : s < st.nodes.length)
    (hL : st.ok_nbr s (st.routes s).left = true)
    (hR : st.ok_nbr s (st.routes s).right = true)
    (hD : (st.routes s).left ≠ (st.routes s).right ∨ (st.routes s).left = none) :
    ∃ st2, st.insulate s =
        (st2, st.value s, (st.routes s).left, (st.routes s).right) ∧
      (st2.routes s).is_insulate = true ∧
      (∀ l, (st.routes s).left = some l →
        (st2.routes l).right = (st.routes s).right) ∧
      (∀ r, (st.routes s).right = some r →
        (st2.routes r).left = (st.routes s).left) ∧
      (∀ j, j ≠ s → (st.routes s).left ≠ some j →
        (st.routes s).right ≠ some j → st2.routes j = st.routes j) ∧
      (∀ j, st2.value j = st.value j) := by
  cases hsl : (st.routes s).left with
  | none =>
      cases hsr : (st.routes s).right with
      | none =>
          refine ⟨(st.set_left s none).set_right s none, ?_, ?_, ?_, ?_, ?_, ?_⟩
          · simp [LState.insulate, hsl, hsr]
          · rw [final_insulated st s hs]
            rfl
          · intro l hl
            exact absurd hl (by simp)
          · intro r hr
            exact absurd hr (by simp)
          · intro j hjs _ _
            rw [routes_set_right_ne _ s j _ hjs, routes_set_left_ne _ s j _ hjs]
          · intro j
            rw [value_set_right, value_set_left]
      | some r =>
          rw [hsr] at hR
          have hr2 : r < st.nodes.length ∧ r ≠ s := by
            simpa [LState.ok_nbr] using hR
          refine ⟨((st.set_left r none).set_left s none).set_right s none,
            ?_, ?_, ?_, ?_, ?_, ?_⟩
          · simp [LState.insulate, hsl, hsr]
          · rw [final_insulated (st.set_left r none) s (by rw [length_set_left]; omega)]
            rfl
          · intro l hl
            exact absurd hl (by simp)
          · intro r0 hr0
            rw [← Option.some.inj hr0]
            rw [routes_set_right_ne _ s r _ hr2.2,
              routes_set_left_ne _ s r _ hr2.2,
              routes_set_left_self _ r _ hr2.1]
          · intro j hjs _ hjr
            have hjr2 : j ≠ r := fun e => hjr (by rw [e])
            rw [routes_set_right_ne _ s j _ hjs, routes_set_left_ne _ s j _ hjs,
              routes_set_left_ne _ r j _ hjr2]
          · intro j
            rw [value_set_right, value_set_left, value_set_left]
  | some l =>
      rw [hsl] at hL
      have hl2 : l < st.nodes.length ∧ l ≠ s := by
        simpa [LState.ok_nbr] using hL
      cases hsr : (st.routes s).right with
      | none =>
          refine ⟨((st.set_right l none).set_left s none).set_right s none,
            ?_, ?_, ?_, ?_, ?_, ?_⟩
          · simp [LState.insulate, hsl, hsr]
          · rw [final_insulated (st.set_right l none) s (by rw [length_set_right]; omega)]
            rfl
          · intro l0 hl0
            rw [← Option.some.inj hl0]
            rw [routes_set_right_ne _ s l _ hl2.2,
              routes_set_left_ne _ s l _ hl2.2,
              routes_set_right_self _ l _ hl2.1]
          · intro r hr
            exact absurd hr (by simp)
          · intro j hjs hjl _
            have hjl2 : j ≠ l := fun e => hjl (by rw [e])
            rw [routes_set_right_ne _ s j _ hjs, routes_set_left_ne _ s j _ hjs,
              routes_set_right_ne _ l j _ hjl2]
          · intro j
            rw [value_set_right, value_set_left, value_set_right]
      | some r =>
          rw [hsr] at hR
          have hr2 : r < st.nodes.length ∧ r ≠ s := by
            simpa [LState.ok_nbr] using hR
          have hlr : l ≠ r := by
            rw [hsl, hsr] at hD
            rcases hD with h1 | h1
            · intro e
              exact h1 (by rw [e])
            · exact absurd h1 (by simp)
          refine ⟨(((st.set_right l (some r)).set_left r (some l)).set_left
              s none).set_right s none, ?_, ?_, ?_, ?_, ?_, ?_⟩
          · simp [LState.insulate, hsl, hsr]
          · rw [final_insulated ((st.set_right l (some r)).set_left r (some l)) s
              (by rw [length_set_left, length_set_right]; omega)]
            rfl
          · intro l0 hl0
            rw [← Option.some.inj hl0]
            rw [routes_set_right_ne _ s l _ hl2.2,
              routes_set_left_ne _ s l _ hl2.2,
              routes_set_left_ne _ r l _ hlr,
              routes_set_right_self _ l _ hl2.1]
          · intro r0 hr0
            rw [← Option.some.inj hr0]
            rw [routes_set_right_ne _ s r _ hr2.2,
              routes_set_left_ne _ s r _ hr2.2,
              routes_set_left_self _ r _ (by rw [length_set_right]; omega)]
          · intro j hjs hjl hjr
            have hjl2 : j ≠ l := fun e => hjl (by rw [e])
            have hjr2 : j ≠ r := fun e => hjr (by rw [e])
            rw [routes_set_right_ne _ s j _ hjs, routes_set_left_ne _ s j _ hjs,
              routes_set_left_ne _ r j _ hjr2,
              routes_set_right_ne _ l j _ hjl2]
          · intro j
            rw [value_set_right, value_set_left, value_set_left, value_set_right]

theorem c6_insulate_witness :
    ∃ st2, threeSt.insulate 1 = (st2, 2, some 0, some 2) ∧
      (st2.routes 1).is_insulate = true ∧
      (st2.routes 0).right = some 2 ∧ (st2.routes 2).left = some 0 := by
  obtain ⟨st2, he, hins, hrel, hrer, _, _⟩ :=
    c6_insulate_spec threeSt 1 (by decide) (by decide) (by decide) (by decide)
  refine ⟨st2, by rw [he]; rfl, hins, ?_, ?_⟩
  · have h := hrel 0 rfl
    rw [h]
    rfl
  · have h := hrer 2 rfl
    rw [h]
    rfl

end DLinked
